import Mathlib

/-!
Shallow embedding of the numerical core of the cca.pytorch repository.

The repository holds two Python modules:
* `cca/cca.py` (the packaged module, exporting `svcca_distance`,
  `pwcca_distance` and `CCAHook`), and
* `src/src/cca.py` (an older standalone variant of the same pipeline).

Matrices are embedded as `Matrix (Fin n) (Fin m) ℚ` (exact arithmetic in
place of floating point).  The external linear-algebra backend `torch.svd`
is embedded as an explicit oracle parameter: a deterministic function
producing, for an `n × m` input, the reduced-SVD triple `(U, S, V)` with
`U : n × min n m`, `S : min n m`, `V : m × min n m`, exactly the shapes
`torch.svd` returns.  Python exceptions are embedded with `Except`.

Note on division: `torch` produces `inf`/`nan` on division by zero, while
`ℚ` yields `0`; every place where this distinction matters is noted at the
theorem concerned.
-/

namespace Cca

/-- Python exceptions raised by the embedded code paths. -/
inductive PyError where
  | assertionError
  | notImplementedError
  | runtimeError
  | nameError
  | typeError
deriving DecidableEq, Repr

/-- The triple returned by `torch.svd` on an `n × m` tensor: `U` is
`n × min n m`, `S` has `min n m` entries, `V` is `m × min n m`. -/
structure SVDRes (n m : ℕ) where
  U : Matrix (Fin n) (Fin (min n m)) ℚ
  S : Fin (min n m) → ℚ
  V : Matrix (Fin m) (Fin (min n m)) ℚ

/-- The `torch.svd` backend, embedded as a deterministic oracle giving an
SVD-shaped triple for every matrix.  Theorems that need genuine SVD
properties assume them via `SVDValid` at the matrices actually decomposed. -/
def SVDOracle := ∀ (n m : ℕ), Matrix (Fin n) (Fin m) ℚ → SVDRes n m

/-- Python `diag.abs().cumsum(dim=0)` evaluated at index `i`: the sum of the
absolute singular values at positions `≤ i`. -/
def absCumsum {k : ℕ} (s : Fin k → ℚ) (i : Fin k) : ℚ :=
  ∑ j ∈ Finset.univ.filter (fun j => j ≤ i), |s j|

/-- The cumulative energy ratio `diag.abs().cumsum(dim=0) / diag.abs().sum()`
of `svd_reduction` (both source files, identical code). -/
def svdRatio {k : ℕ} (s : Fin k → ℚ) (i : Fin k) : ℚ :=
  absCumsum s i / (∑ j, |s j|)

/-- The retained-column count of `svd_reduction`:
`torch.where(ratio < accept_rate, ones, zeros).sum()` counts the indices
whose cumulative ratio is strictly below `accept_rate`. -/
def retainedNum {k : ℕ} (s : Fin k → ℚ) (accept_rate : ℚ) : ℕ :=
  (Finset.univ.filter (fun i => svdRatio s i < accept_rate)).card

/-- Column slicing `right[:, :num]`: the first `num` columns of a matrix. -/
def takeCols {m k : ℕ} (V : Matrix (Fin m) (Fin k) ℚ) (num : ℕ) (h : num ≤ k) :
    Matrix (Fin m) (Fin num) ℚ :=
  fun i j => V i (Fin.castLE h j)

/-- Function `svd_reduction(tensor, accept_rate=0.99)` (identical in both source
files): decompose with `torch.svd`, count the indices whose cumulative
absolute-singular-value ratio is strictly below `accept_rate`, and return
`tensor @ right[:, :num]`.  The retained count is data dependent, so the
result is a sigma pair of the count and the reduced matrix. -/
def svd_reduction (o : SVDOracle) {n m : ℕ} (x : Matrix (Fin n) (Fin m) ℚ)
    (accept_rate : ℚ := 99/100) : Σ num : ℕ, Matrix (Fin n) (Fin num) ℚ :=
  ⟨retainedNum (o n m x).S accept_rate,
    x * takeCols (o n m x).V (retainedNum (o n m x).S accept_rate)
      (le_trans (Finset.card_filter_le _ _) (le_of_eq (by simp)))⟩

/-- Function `zero_mean(tensor, dim=0)` (identical in both source files): subtract
the per-column mean. -/
def zero_mean {n m : ℕ} (x : Matrix (Fin n) (Fin m) ℚ) : Matrix (Fin n) (Fin m) ℚ :=
  fun i j => x i j - (∑ r, x r j) / (n : ℚ)

/-- Function `_svd_cca(x, y)` (identical mathematics in both source files):
decompose both inputs, decompose the cross matrix `u_1.t() @ u_2`, and
build the canonical directions `a = v_1 @ s_1.reciprocal().diag() @ u` and
`b = v_2 @ s_2.reciprocal().diag() @ v`; the canonical correlations are
the singular values of the cross matrix.  The `reciprocal` of `torch` maps
`0` to `inf` whereas `ℚ` maps `0` to `0`, so the embedding diverges from
the program at a zero singular value (the program then propagates
`inf`/NaN into `a` and `b`).  The distance values of `svcca_distance`
use only the returned correlations, never `a` or `b`; every theorem below
whose conclusion depends on `a` (the PWCCA path) therefore assumes all
decomposed singular values are nonzero, keeping the exact arithmetic in
agreement with the program (see `rank_deficient_exhibit` for a valid
input excluded by that assumption). -/
def _svd_cca (o : SVDOracle) {n m1 m2 : ℕ}
    (x : Matrix (Fin n) (Fin m1) ℚ) (y : Matrix (Fin n) (Fin m2) ℚ) :
    Matrix (Fin m1) (Fin (min (min n m1) (min n m2))) ℚ
    × Matrix (Fin m2) (Fin (min (min n m1) (min n m2))) ℚ
    × (Fin (min (min n m1) (min n m2)) → ℚ) :=
  let s1 := o n m1 x
  let s2 := o n m2 y
  let suu := o (min n m1) (min n m2) (s1.U.transpose * s2.U)
  (s1.V * Matrix.diagonal (fun i => (s1.S i)⁻¹) * suu.U,
   s2.V * Matrix.diagonal (fun i => (s2.S i)⁻¹) * suu.V,
   suu.S)

/-- Function `_cca(x, y, method)` from `cca/cca.py`: both inputs share the row count
`n` by construction (the first `assert` there), the remaining asserts are
`x.size(0) >= x.size(1) and y.size(0) >= y.size(1)` and
`method in ("svd", "qr")`; afterwards the inputs are zero-meaned and the
function returns `_svd_cca(x, y)` regardless of `method`. -/
def _cca (o : SVDOracle) {n m1 m2 : ℕ}
    (x : Matrix (Fin n) (Fin m1) ℚ) (y : Matrix (Fin n) (Fin m2) ℚ)
    (method : String) :
    Except PyError
      (Matrix (Fin m1) (Fin (min (min n m1) (min n m2))) ℚ
       × Matrix (Fin m2) (Fin (min (min n m1) (min n m2))) ℚ
       × (Fin (min (min n m1) (min n m2)) → ℚ)) :=
  if ¬ (m1 ≤ n ∧ m2 ≤ n) then .error .assertionError
  else if ¬ (method = "svd" ∨ method = "qr") then .error .assertionError
  else .ok (_svd_cca o (zero_mean x) (zero_mean y))

/-- Function `svcca_distance(x, y, method="svd")` from `cca/cca.py`: reduce both
inputs with `svd_reduction`, set `div = min(x.size(1), y.size(1))` of the
reduced matrices, run `_cca`, and return `1 - diag.sum() / div`. -/
def svcca_distance (o : SVDOracle) {n m1 m2 : ℕ}
    (x : Matrix (Fin n) (Fin m1) ℚ) (y : Matrix (Fin n) (Fin m2) ℚ)
    (method : String := "svd") : Except PyError ℚ :=
  let xr := svd_reduction o x
  let yr := svd_reduction o y
  let div := min xr.1 yr.1
  (_cca o xr.2 yr.2 method).map (fun abd => 1 - (∑ i, abd.2.2 i) / (div : ℚ))

/-- Function `pwcca_distance(x, y, method="svd")` from `cca/cca.py`: run `_cca` on
the raw inputs, weight by `alpha = (x @ a).abs().sum(dim=0)` normalized to
sum `1`, and return `1 - alpha @ diag`. -/
def pwcca_distance (o : SVDOracle) {n m1 m2 : ℕ}
    (x : Matrix (Fin n) (Fin m1) ℚ) (y : Matrix (Fin n) (Fin m2) ℚ)
    (method : String := "svd") : Except PyError ℚ :=
  (_cca o x y method).map (fun abd =>
    let alpha := fun j => ∑ i, |(x * abd.1) i j|
    1 - ∑ j, (alpha j / ∑ l, alpha l) * abd.2.2 j)

namespace Src

/-- Function `cca(x, y, method)` from `src/src/cca.py`: the first `assert` (equal
row counts) holds by construction; the second is
`method in ("svd", "qr")`; then the inputs are zero-meaned and the result
is `_svd_cca(x, y) if method == "svd" else _qr_cca(x, y)`, where
`_qr_cca` raises `NotImplementedError`.  Unlike `cca/cca.py`, there is no
`samples >= features` assert here. -/
def cca (o : SVDOracle) {n m1 m2 : ℕ}
    (x : Matrix (Fin n) (Fin m1) ℚ) (y : Matrix (Fin n) (Fin m2) ℚ)
    (method : String) :
    Except PyError
      (Matrix (Fin m1) (Fin (min (min n m1) (min n m2))) ℚ
       × Matrix (Fin m2) (Fin (min (min n m1) (min n m2))) ℚ
       × (Fin (min (min n m1) (min n m2)) → ℚ)) :=
  if ¬ (method = "svd" ∨ method = "qr") then .error .assertionError
  else if method = "svd" then .ok (_svd_cca o (zero_mean x) (zero_mean y))
  else .error .notImplementedError

end Src

/-- Python tuple comparison `(a1, a2) > (b1, b2)`: lexicographic. -/
def pyTupleGt (a b : ℕ × ℕ) : Prop :=
  b.1 < a.1 ∨ (a.1 = b.1 ∧ b.2 < a.2)

instance (a b : ℕ × ℕ) : Decidable (pyTupleGt a b) := by
  unfold pyTupleGt; infer_instance

/-- Function `_conv2d_reshape(tensor, size)` from `cca/cca.py`, modelled at the
shape level for a `(b, c, h, w)` tensor.  The guard is the Python tuple
comparison `(size, size) > (h, w)`, which raises `RuntimeError`; otherwise
the tensor is adaptively average-pooled to `(size, size)` when `size` is
given, then `reshape(b, c, -1).permute(2, 0, 1)` yields shape
`(locations, b, c)`. -/
def _conv2d_reshape (b c h w : ℕ) (size : Option ℕ) : Except PyError (ℕ × ℕ × ℕ) :=
  match size with
  | none => .ok (h * w, b, c)
  | some s =>
    if pyTupleGt (s, s) (h, w) then .error .runtimeError
    else .ok (s * s, b, c)

/-- The layer kinds relevant to `CCAHook._supported_modules`
`= (nn.Conv2d, nn.Linear)`; `other` stands for any other module type. -/
inductive ModuleKind where
  | linear
  | conv2d
  | other
deriving DecidableEq, Repr

/-- Python dict comprehension `{n: m for n, m in model.named_modules()}`:
later bindings for the same key overwrite earlier ones. -/
def pyDictLookup {κ : Type} (l : List (String × κ)) (name : String) : Option κ :=
  l.foldl (fun acc p => if p.1 = name then some p.2 else acc) none

/-- The state a `CCAHook` keeps on the hooked module: the resolved module
kind and the `_<name>_hooked_value` attribute, which is `None` exactly when
no forward pass has populated it (the `Empty` state). -/
structure CCAHook (α : Type) where
  kind : ModuleKind
  slot : Option α
deriving DecidableEq

/-- Method `CCAHook.__init__` from `cca/cca.py`: resolve `name` in the dict built
from `model.named_modules()`, raising `NameError` when absent and
`TypeError` when the module type is not in `_supported_modules`; on
success the hooked-value attribute is set to `None` (no forward pass is
needed or performed). -/
def CCAHook.init {α : Type} (modules : List (String × ModuleKind)) (name : String) :
    Except PyError (CCAHook α) :=
  match pyDictLookup modules name with
  | none => .error .nameError
  | some k =>
    if k = ModuleKind.conv2d ∨ k = ModuleKind.linear then .ok ⟨k, none⟩
    else .error .typeError

/-- The registered forward hook `setattr(module, key, output)`: every
forward pass through the layer overwrites the slot with the new output. -/
def CCAHook.onForward {α : Type} (h : CCAHook α) (output : α) : CCAHook α :=
  { h with slot := some output }

/-- Method `CCAHook.clear`: `setattr(self._module, self._key, None)`. -/
def CCAHook.clear {α : Type} (h : CCAHook α) : CCAHook α :=
  { h with slot := none }

/-- Method `CCAHook._get_hooked_value`: raises `RuntimeError` ("Please do
model.forward() before CCA!") when the slot is `None`. -/
def CCAHook._get_hooked_value {α : Type} (h : CCAHook α) : Except PyError α :=
  match h.slot with
  | none => .error .runtimeError
  | some v => .ok v

/-- Specification of a genuine (reduced) SVD for the oracle output at a
given matrix: the triple reconstructs the matrix, `U` and `V` have
orthonormal columns, and the singular values are nonnegative. -/
def SVDValid {n m : ℕ} (A : Matrix (Fin n) (Fin m) ℚ) (s : SVDRes n m) : Prop :=
  A = s.U * Matrix.diagonal s.S * s.V.transpose
  ∧ s.U.transpose * s.U = 1
  ∧ s.V.transpose * s.V = 1
  ∧ ∀ i, 0 ≤ s.S i

/-- Modelled from the spec wording for the DimensionalityReducer: the
count of leading singular values (a prefix of the spectrum) each of whose
cumulative energy ratio is strictly below the accept rate. -/
def leadingCount {k : ℕ} (s : Fin k → ℚ) (accept_rate : ℚ) : ℕ :=
  (Finset.univ.filter (fun i => ∀ j, j ≤ i → svdRatio s j < accept_rate)).card

/-- A degenerate backend stand-in that returns all-zero triples; used to
instantiate oracle-generic theorems at a concrete backend. -/
def zeroOracle : SVDOracle := fun _ _ _ => ⟨0, fun _ => 0, 0⟩

/-- The concrete `4 × 1` data matrix with column `(3, 3, -3, -3)`: its
columns are already zero-mean, and its single singular value is `6`. -/
def x0mat : Matrix (Fin 4) (Fin 1) ℚ := !![3; 3; -3; -3]

/-- A backend that returns the genuine SVD of `x0mat` (namely
`U = (1/2, 1/2, -1/2, -1/2)`, `S = (6)`, `V = (1)`) on `4 × 1` inputs and
zero triples elsewhere (where only empty matrices are ever decomposed). -/
def cexOracle : SVDOracle := fun n m _ =>
  match n, m with
  | 4, 1 => ⟨!![1/2; 1/2; -1/2; -1/2], ![6], !![1]⟩
  | _, _ => ⟨0, fun _ => 0, 0⟩

/-- The concrete `4 × 2` data matrix whose columns `6·u1` and `4·u2` are
built from the orthonormal zero-mean vectors `u1 = (1/2, 1/2, -1/2, -1/2)`
and `u2 = (1/2, -1/2, 1/2, -1/2)`. -/
def wXmat : Matrix (Fin 4) (Fin 2) ℚ := !![3, 2; 3, -2; -3, 2; -3, -2]

/-- A backend returning genuine SVDs at every matrix the self-distance
pipeline visits when run on `wXmat`: the `4 × 2` input itself, the reduced
`4 × 1` column `6·u1`, and the identity cross matrices of sizes `1` and
`2`. -/
def wOracle : SVDOracle := fun n m _ =>
  match n, m with
  | 4, 2 => ⟨!![1/2, 1/2; 1/2, -1/2; -1/2, 1/2; -1/2, -1/2], ![6, 4], !![1, 0; 0, 1]⟩
  | 4, 1 => ⟨!![1/2; 1/2; -1/2; -1/2], ![6], !![1]⟩
  | 1, 1 => ⟨!![1], ![1], !![1]⟩
  | 2, 2 => ⟨!![1, 0; 0, 1], ![1, 1], !![1, 0; 0, 1]⟩
  | _, _ => ⟨0, fun _ => 0, 0⟩

/-- The all-ones `1 × 1` matrix, a minimal valid feature matrix. -/
def oneMat : Matrix (Fin 1) (Fin 1) ℚ := !![1]

/-- A valid (4 samples, 3 features, zero-mean) but rank-deficient feature
matrix `[6·u1, 4·u2, 0]`: its third singular value is `0`, so the
program computes `s_1.reciprocal() = (1/6, 1/4, inf)` on it and
`pwcca_distance` returns NaN. -/
def rdXmat : Matrix (Fin 4) (Fin 3) ℚ :=
  !![3, 2, 0; 3, -2, 0; -3, 2, 0; -3, -2, 0]

/-- A backend returning a genuine rational SVD of `rdXmat` on `4 × 3`
inputs (third singular value `0`, third left singular vector an
orthonormal completion) and zero triples elsewhere. -/
def rdOracle : SVDOracle := fun n m _ =>
  match n, m with
  | 4, 3 => ⟨!![1/2, 1/2, 1/2; 1/2, -1/2, -1/2; -1/2, 1/2, -1/2; -1/2, -1/2, 1/2],
      ![6, 4, 0], !![1, 0, 0; 0, 1, 0; 0, 0, 1]⟩
  | _, _ => ⟨0, fun _ => 0, 0⟩

section Lemmas

/-- The retained-column count never exceeds the number of singular
values. -/
theorem retainedNum_le {k : ℕ} (s : Fin k → ℚ) (r : ℚ) : retainedNum s r ≤ k :=
  le_trans (Finset.card_filter_le _ _) (le_of_eq (by simp))

/-- The reduced matrix never has more columns than `min n m`. -/
theorem svd_reduction_fst_le (o : SVDOracle) {n m : ℕ}
    (x : Matrix (Fin n) (Fin m) ℚ) (r : ℚ) :
    (svd_reduction o x r).1 ≤ min n m :=
  retainedNum_le _ _

/-- The cumulative energy ratio is monotone in the index. -/
theorem svdRatio_mono {k : ℕ} (s : Fin k → ℚ) {i j : Fin k} (hij : j ≤ i) :
    svdRatio s j ≤ svdRatio s i := by
  unfold svdRatio
  refine div_le_div_of_nonneg_right ?_ ?_
  · unfold absCumsum
    refine Finset.sum_le_sum_of_subset_of_nonneg ?_ ?_
    · exact Finset.monotone_filter_right _ (fun a haj => le_trans haj hij)
    · exact fun a _ _ => abs_nonneg _
  · exact Finset.sum_nonneg (fun a _ => abs_nonneg _)

/-- Singular values of an identity matrix: if a `SVDValid` triple
reconstructs `1`, all its singular values are `1`. -/
theorem svdvalid_one_diag {p : ℕ} (s : SVDRes p p)
    (h : SVDValid (1 : Matrix (Fin p) (Fin p) ℚ) s) : ∀ i, s.S i = 1 := by
  obtain ⟨hA, hU, hV, hS⟩ := h
  have hUt : s.U.transpose = Matrix.diagonal s.S * s.V.transpose := by
    calc s.U.transpose = s.U.transpose * 1 := (Matrix.mul_one _).symm
      _ = s.U.transpose * (s.U * Matrix.diagonal s.S * s.V.transpose) := by rw [← hA]
      _ = (s.U.transpose * s.U) * (Matrix.diagonal s.S * s.V.transpose) := by
          simp only [Matrix.mul_assoc]
      _ = Matrix.diagonal s.S * s.V.transpose := by rw [hU, Matrix.one_mul]
  have hUU : s.U = s.V * Matrix.diagonal s.S := by
    have h2 := congrArg Matrix.transpose hUt
    rwa [Matrix.transpose_transpose, Matrix.transpose_mul,
      Matrix.transpose_transpose, Matrix.diagonal_transpose] at h2
  have hDD : Matrix.diagonal s.S * Matrix.diagonal s.S = 1 := by
    calc Matrix.diagonal s.S * Matrix.diagonal s.S
        = Matrix.diagonal s.S * (s.V.transpose * s.V) * Matrix.diagonal s.S := by
          rw [hV, Matrix.mul_one]
      _ = (Matrix.diagonal s.S * s.V.transpose) * (s.V * Matrix.diagonal s.S) := by
          simp only [Matrix.mul_assoc]
      _ = s.U.transpose * s.U := by rw [← hUt, ← hUU]
      _ = 1 := hU
  rw [Matrix.diagonal_mul_diagonal] at hDD
  intro i
  have hsq : s.S i * s.S i = 1 := by
    have h3 := congrFun (congrFun hDD i) i
    rwa [Matrix.diagonal_apply_eq, Matrix.one_apply_eq] at h3
  rcases mul_self_eq_one_iff.mp hsq with h4 | h4
  · exact h4
  · nlinarith [hS i]

/-- Running the CCA core on a matrix paired with itself yields all-one
canonical correlations, provided the backend returns genuine SVDs for the
matrix and for the resulting (identity) cross matrix. -/
theorem _svd_cca_self_diag (o : SVDOracle) {n k : ℕ} (z : Matrix (Fin n) (Fin k) ℚ)
    (hz : SVDValid z (o n k z))
    (huu : SVDValid ((o n k z).U.transpose * (o n k z).U)
      (o (min n k) (min n k) ((o n k z).U.transpose * (o n k z).U))) :
    ∀ i, (_svd_cca o z z).2.2 i = 1 := by
  have hU : (o n k z).U.transpose * (o n k z).U = 1 := hz.2.1
  nth_rewrite 1 [hU] at huu
  exact svdvalid_one_diag _ huu

/-- If every column of `A` sums to zero, so does every column of
`A * B`. -/
theorem colsum_mul_eq_zero {p q r : ℕ} (A : Matrix (Fin p) (Fin q) ℚ)
    (B : Matrix (Fin q) (Fin r) ℚ) (h : ∀ l, (∑ i, A i l) = 0) (j : Fin r) :
    (∑ i, (A * B) i j) = 0 := by
  simp only [Matrix.mul_apply]
  rw [Finset.sum_comm]
  refine Finset.sum_eq_zero (fun l _ => ?_)
  rw [← Finset.sum_mul, h l, zero_mul]

/-- When the backend returns a genuine SVD of the centered input whose
singular values are all nonzero (the condition under which the reciprocal
path of the program stays finite), the PWCCA projection weights of a matrix
against itself cannot all vanish: the centered matrix has zero column
sums, so `x @ a` decomposes into the product of the left singular bases
(with zero column sums and
orthonormal columns) plus a constant-row matrix, and the two cannot
cancel. -/
theorem pwcca_self_weights_ne (o : SVDOracle) {n m : ℕ}
    (x : Matrix (Fin n) (Fin m) ℚ) (hm1 : 1 ≤ m) (hmn : m ≤ n)
    (hraw : SVDValid (zero_mean x) (o n m (zero_mean x)))
    (hrawuu : SVDValid ((o n m (zero_mean x)).U.transpose * (o n m (zero_mean x)).U)
      (o (min n m) (min n m)
        ((o n m (zero_mean x)).U.transpose * (o n m (zero_mean x)).U)))
    (hS : ∀ i, (o n m (zero_mean x)).S i ≠ 0) :
    (∑ l, ∑ i, |(x * (_svd_cca o (zero_mean x) (zero_mean x)).1) i l|) ≠ 0 := by
  intro htot
  have hn0 : ((n : ℕ) : ℚ) ≠ 0 := Nat.cast_ne_zero.mpr (by omega)
  obtain ⟨hzUDV, hUU, hVV, _⟩ := hraw
  have hUpU := hrawuu.2.1
  set z := zero_mean x with hzdef
  set s := o n m z with hsdef
  set suu := o (min n m) (min n m) (s.U.transpose * s.U) with hsuudef
  set A := s.V * Matrix.diagonal (fun i => (s.S i)⁻¹) * suu.U with hAdef
  have htot2 : (∑ l, ∑ i, |(x * A) i l|) = 0 := htot
  have hent : x * A = 0 := by
    ext i l
    have h1 := (Finset.sum_eq_zero_iff_of_nonneg
      (fun l2 _ => Finset.sum_nonneg (fun i2 _ => abs_nonneg _))).mp htot2 l (Finset.mem_univ l)
    have h2 := (Finset.sum_eq_zero_iff_of_nonneg
      (fun i2 _ => abs_nonneg _)).mp h1 i (Finset.mem_univ i)
    rw [Matrix.zero_apply]
    exact abs_eq_zero.mp h2
  have hSS : Matrix.diagonal s.S * Matrix.diagonal (fun i => (s.S i)⁻¹) = 1 := by
    rw [Matrix.diagonal_mul_diagonal]
    rw [show (fun i => s.S i * (s.S i)⁻¹) = fun _ : Fin (min n m) => (1 : ℚ) from
      funext (fun i => mul_inv_cancel₀ (hS i))]
    exact Matrix.diagonal_one
  have hza : z * A = s.U * suu.U := by
    rw [hAdef, hzUDV]
    simp only [Matrix.mul_assoc]
    rw [show s.V.transpose * (s.V * (Matrix.diagonal (fun i => (s.S i)⁻¹) * suu.U))
        = Matrix.diagonal (fun i => (s.S i)⁻¹) * suu.U from by
      rw [← Matrix.mul_assoc, hVV, Matrix.one_mul]]
    rw [show Matrix.diagonal s.S * (Matrix.diagonal (fun i => (s.S i)⁻¹) * suu.U)
        = suu.U from by
      rw [← Matrix.mul_assoc, hSS, Matrix.one_mul]]
  have hzsum : ∀ l, (∑ i, z i l) = 0 := by
    intro l
    rw [hzdef]
    show (∑ i, (x i l - (∑ r, x r l) / ((n : ℕ) : ℚ))) = 0
    rw [Finset.sum_sub_distrib, Finset.sum_const, Finset.card_univ, Fintype.card_fin,
      nsmul_eq_mul, mul_comm, div_mul_cancel₀ _ hn0, sub_self]
  have hzv : z * s.V = s.U * Matrix.diagonal s.S := by
    rw [hzUDV]
    simp only [Matrix.mul_assoc]
    rw [hVV, Matrix.mul_one]
  have hUdef : s.U = z * s.V * Matrix.diagonal (fun i => (s.S i)⁻¹) := by
    rw [hzv, Matrix.mul_assoc, hSS, Matrix.mul_one]
  have hUsum : ∀ j, (∑ i, s.U i j) = 0 := by
    intro j
    rw [hUdef]
    exact colsum_mul_eq_zero (z * s.V) _ (fun l => colsum_mul_eq_zero z s.V hzsum l) j
  have hpoint : ∀ (i : Fin n) j, (x * A) i j
      = (z * A) i j + (∑ l, ((∑ r, x r l) / ((n : ℕ) : ℚ)) * A l j) := by
    intro i j
    rw [Matrix.mul_apply, Matrix.mul_apply, ← Finset.sum_add_distrib]
    refine Finset.sum_congr rfl (fun l _ => ?_)
    have hz_il : z i l = x i l - (∑ r, x r l) / ((n : ℕ) : ℚ) := by
      rw [hzdef]
      show x i l - (∑ r, x r l) / ((n : ℕ) : ℚ)
        = x i l - (∑ r, x r l) / ((n : ℕ) : ℚ)
      rfl
    rw [hz_il]
    ring
  have hbeta : ∀ j, (∑ l, ((∑ r, x r l) / ((n : ℕ) : ℚ)) * A l j) = 0 := by
    intro j
    have h4 : (∑ i, (x * A) i j) = (∑ i, (z * A) i j)
        + (n : ℕ) • (∑ l, ((∑ r, x r l) / ((n : ℕ) : ℚ)) * A l j) := by
      rw [Finset.sum_congr rfl (fun i _ => hpoint i j), Finset.sum_add_distrib,
        Finset.sum_const, Finset.card_univ, Fintype.card_fin]
    rw [show (∑ i, (x * A) i j) = 0 from by rw [hent]; simp,
      colsum_mul_eq_zero z A hzsum j, zero_add, nsmul_eq_mul] at h4
    rcases mul_eq_zero.mp h4.symm with h | h
    · exact absurd h hn0
    · exact h
  have hUU0 : s.U * suu.U = 0 := by
    rw [← hza]
    ext i j
    have h5 := congrFun (congrFun hent i) j
    have h6 := hpoint i j
    rw [hbeta j, add_zero] at h6
    rw [Matrix.zero_apply, ← h6, h5, Matrix.zero_apply]
  have hone : (1 : Matrix (Fin (min (min n m) (min n m)))
      (Fin (min (min n m) (min n m))) ℚ) = 0 := by
    calc (1 : Matrix (Fin (min (min n m) (min n m)))
        (Fin (min (min n m) (min n m))) ℚ)
        = suu.U.transpose * suu.U := hUpU.symm
      _ = suu.U.transpose * ((1 : Matrix (Fin (min n m)) (Fin (min n m)) ℚ) * suu.U) := by
          rw [Matrix.one_mul]
      _ = suu.U.transpose * (s.U.transpose * s.U * suu.U) := by rw [hUU]
      _ = suu.U.transpose * s.U.transpose * (s.U * suu.U) := by
          simp only [Matrix.mul_assoc]
      _ = (s.U * suu.U).transpose * (s.U * suu.U) := by rw [Matrix.transpose_mul]
      _ = 0 := by rw [hUU0, Matrix.mul_zero]
  have hmin1 : 0 < min (min n m) (min n m) := by
    rw [Nat.min_self, Nat.min_eq_right hmn]
    omega
  have hcontra := congrFun (congrFun hone ⟨0, hmin1⟩) ⟨0, hmin1⟩
  rw [Matrix.one_apply_eq, Matrix.zero_apply] at hcontra
  exact one_ne_zero hcontra

/-- Evaluation of `svcca_distance`: the asserts inside `_cca` always pass
on the reduced matrices (reduced column counts never exceed the sample
count), so the distance is `1` minus the diag sum over the minimum
reduced dimension. -/
theorem svcca_eval (o : SVDOracle) {n m1 m2 : ℕ}
    (x : Matrix (Fin n) (Fin m1) ℚ) (y : Matrix (Fin n) (Fin m2) ℚ) :
    svcca_distance o x y = Except.ok
      (1 - (∑ i, (_svd_cca o (zero_mean (svd_reduction o x).2)
                    (zero_mean (svd_reduction o y).2)).2.2 i)
            / ((min (svd_reduction o x).1 (svd_reduction o y).1 : ℕ) : ℚ)) := by
  have h1 : (svd_reduction o x).1 ≤ n :=
    le_trans (svd_reduction_fst_le o x _) (min_le_left _ _)
  have h2 : (svd_reduction o y).1 ≤ n :=
    le_trans (svd_reduction_fst_le o y _) (min_le_left _ _)
  unfold svcca_distance _cca
  simp [h1, h2, Except.map]

/-- Evaluation of `pwcca_distance` under the `samples >= features`
asserts of `_cca`. -/
theorem pwcca_eval (o : SVDOracle) {n m1 m2 : ℕ}
    (x : Matrix (Fin n) (Fin m1) ℚ) (y : Matrix (Fin n) (Fin m2) ℚ)
    (hx : m1 ≤ n) (hy : m2 ≤ n) :
    pwcca_distance o x y = Except.ok
      (1 - ∑ j, ((∑ i, |(x * (_svd_cca o (zero_mean x) (zero_mean y)).1) i j|)
                  / (∑ l, ∑ i, |(x * (_svd_cca o (zero_mean x) (zero_mean y)).1) i l|))
                * (_svd_cca o (zero_mean x) (zero_mean y)).2.2 j) := by
  unfold pwcca_distance _cca
  simp [hx, hy, Except.map]

/-- Characterisation of `svd_reduction` results as explicit sigma pairs,
used to evaluate the reducer at concrete inputs. -/
theorem svd_reduction_eq_of (o : SVDOracle) {n m : ℕ}
    (x : Matrix (Fin n) (Fin m) ℚ) (r : ℚ) (k : ℕ)
    (hk : retainedNum (o n m x).S r = k) (hle : k ≤ min n m)
    (M : Matrix (Fin n) (Fin k) ℚ)
    (hM : x * takeCols (o n m x).V k hle = M) :
    svd_reduction o x r = ⟨k, M⟩ := by
  subst hM
  subst hk
  rfl

end Lemmas

section C9

/-- C9: for a fixed input matrix and `0 < r1 ≤ r2 ≤ 1`, the column count
retained by `svd_reduction` at accept rate `r1` is at most the count
retained at `r2`. -/
theorem svd_reduction_monotone (o : SVDOracle) {n m : ℕ}
    (x : Matrix (Fin n) (Fin m) ℚ) (r1 r2 : ℚ)
    (h0 : 0 < r1) (h1 : r2 ≤ 1) (h12 : r1 ≤ r2) :
    (svd_reduction o x r1).1 ≤ (svd_reduction o x r2).1 := by
  refine Finset.card_le_card ?_
  exact Finset.monotone_filter_right _ (fun i hi => lt_of_lt_of_le hi h12)

/-- Witness for C9 at the backend `zeroOracle`, the matrix `oneMat` and
the rates `1/2 ≤ 3/4`. -/
theorem svd_reduction_monotone_witness :
    (0 : ℚ) < 1/2 ∧ (3/4 : ℚ) ≤ 1 ∧ (1/2 : ℚ) ≤ 3/4 ∧
      (svd_reduction zeroOracle oneMat (1/2)).1 ≤ (svd_reduction zeroOracle oneMat (3/4)).1 :=
  ⟨by norm_num, by norm_num, by norm_num,
    svd_reduction_monotone zeroOracle oneMat (1/2) (3/4)
      (by norm_num) (by norm_num) (by norm_num)⟩

end C9

section C2

/-- C2: for every input matrix and accept rate in `(0, 1]`, the reducer
retains exactly the count of leading singular values whose cumulative
absolute-singular-value ratio is strictly below the accept rate, and the
output is the input projected onto the corresponding first right singular
vectors (a `[samples, k]` matrix); moreover `k` degenerates to `0` on the
concrete input `x0mat`, whose first cumulative ratio already reaches the
default accept rate `0.99`. -/
theorem svd_reduction_spec :
    (∀ (o : SVDOracle) (n m : ℕ) (x : Matrix (Fin n) (Fin m) ℚ) (r : ℚ),
      0 < r → r ≤ 1 →
      (svd_reduction o x r).1 = leadingCount (o n m x).S r
      ∧ ∀ (i : Fin n) (j : Fin (svd_reduction o x r).1),
          (svd_reduction o x r).2 i j
            = ∑ l, x i l * (o n m x).V l (Fin.castLE (svd_reduction_fst_le o x r) j))
    ∧ ((99/100 : ℚ) ≤ svdRatio (cexOracle 4 1 x0mat).S ⟨0, by decide⟩
       ∧ (svd_reduction cexOracle x0mat (99/100)).1 = 0) := by
  constructor
  · intro o n m x r _ _
    constructor
    · unfold svd_reduction retainedNum leadingCount
      apply congrArg Finset.card
      ext i
      simp only [Finset.mem_filter, Finset.mem_univ, true_and]
      constructor
      · intro hi j hj
        exact lt_of_le_of_lt (svdRatio_mono _ hj) hi
      · intro h
        exact h i le_rfl
    · intro i j
      simp [svd_reduction, takeCols, Matrix.mul_apply]
  · have hS : (cexOracle 4 1 x0mat).S = ![6] := rfl
    have hratio : ∀ i : Fin (min 4 1), svdRatio (cexOracle 4 1 x0mat).S i = 1 := by
      intro i
      unfold svdRatio absCumsum
      rw [hS]
      have hfilter : (Finset.univ.filter (fun j : Fin (min 4 1) => j ≤ i)) = Finset.univ := by
        refine Finset.filter_true_of_mem (fun j _ => ?_)
        omega
      rw [hfilter]
      rw [show (Finset.univ : Finset (Fin (min 4 1))) = {⟨0, by decide⟩} from rfl]
      norm_num
    constructor
    · rw [hratio]
      norm_num
    · unfold svd_reduction retainedNum
      rw [Finset.card_eq_zero, Finset.filter_eq_empty_iff]
      intro i _
      rw [hratio]
      norm_num

end C2

section C2W

/-- Witness for C2 at the backend `zeroOracle`, the matrix `oneMat` and
the rate `1/2`. -/
theorem svd_reduction_spec_witness :
    (0:ℚ) < 1/2 ∧ (1/2:ℚ) ≤ 1 ∧
    ((svd_reduction zeroOracle oneMat (1/2)).1 = leadingCount (zeroOracle 1 1 oneMat).S (1/2)
     ∧ ∀ (i : Fin 1) (j : Fin (svd_reduction zeroOracle oneMat (1/2)).1),
         (svd_reduction zeroOracle oneMat (1/2)).2 i j
           = ∑ l, oneMat i l * (zeroOracle 1 1 oneMat).V l
               (Fin.castLE (svd_reduction_fst_le zeroOracle oneMat (1/2)) j)) :=
  ⟨by norm_num, by norm_num,
    svd_reduction_spec.1 zeroOracle 1 1 oneMat (1/2) (by norm_num) (by norm_num)⟩

end C2W

section C10

/-- C10: when at least one singular value is nonzero and the accept rate
is at most `1`, the reducer never retains all singular vectors, because
the final cumulative energy ratio equals exactly `1`; hence the reduced
matrix has strictly fewer columns than `min(samples, features)`. -/
theorem svd_reduction_never_full (o : SVDOracle) {n m : ℕ}
    (x : Matrix (Fin n) (Fin m) ℚ) (r : ℚ) (hr : r ≤ 1)
    (hnz : ∃ i, (o n m x).S i ≠ 0) :
    (svd_reduction o x r).1 < min n m := by
  have hk : 0 < min n m := by
    obtain ⟨i, _⟩ := hnz
    exact i.pos
  have htotal : 0 < ∑ j, |(o n m x).S j| := by
    obtain ⟨i, hi⟩ := hnz
    exact Finset.sum_pos' (fun j _ => abs_nonneg _) ⟨i, Finset.mem_univ i, abs_pos.mpr hi⟩
  have hlast : svdRatio (o n m x).S ⟨min n m - 1, by omega⟩ = 1 := by
    unfold svdRatio absCumsum
    have hfilter : (Finset.univ.filter
        (fun j : Fin (min n m) => j ≤ ⟨min n m - 1, by omega⟩)) = Finset.univ := by
      refine Finset.filter_true_of_mem (fun j _ => ?_)
      show j.1 ≤ min n m - 1
      have := j.isLt
      omega
    rw [hfilter]
    exact div_self (ne_of_gt htotal)
  show retainedNum (o n m x).S r < min n m
  unfold retainedNum
  have hsub : (Finset.univ.filter (fun i => svdRatio (o n m x).S i < r))
      ⊆ Finset.univ.erase ⟨min n m - 1, by omega⟩ := by
    intro a ha
    rw [Finset.mem_erase]
    refine ⟨?_, Finset.mem_univ a⟩
    intro heq
    rw [Finset.mem_filter] at ha
    rw [heq, hlast] at ha
    exact absurd hr (not_le_of_lt ha.2)
  calc (Finset.univ.filter (fun i => svdRatio (o n m x).S i < r)).card
      ≤ (Finset.univ.erase (⟨min n m - 1, by omega⟩ : Fin (min n m))).card :=
        Finset.card_le_card hsub
    _ = min n m - 1 := by
        rw [Finset.card_erase_of_mem (Finset.mem_univ _)]
        simp
    _ < min n m := by omega

/-- Witness for C10 at the backend `cexOracle` and the matrix `x0mat`,
whose single singular value is `6 ≠ 0`. -/
theorem svd_reduction_never_full_witness :
    (1 : ℚ) ≤ 1 ∧ (∃ i, (cexOracle 4 1 x0mat).S i ≠ 0) ∧
      (svd_reduction cexOracle x0mat 1).1 < min 4 1 := by
  have hnz : ∃ i, (cexOracle 4 1 x0mat).S i ≠ 0 :=
    ⟨⟨0, by decide⟩, by show (6 : ℚ) ≠ 0; norm_num⟩
  exact ⟨le_refl 1, hnz, svd_reduction_never_full cexOracle x0mat 1 (le_refl 1) hnz⟩

end C10

section C1

/-- C1: for valid feature matrices (equal sample counts by construction,
samples at least features), the packaged `svcca_distance` of `cca/cca.py`
succeeds and equals `1` minus the sum of the canonical correlations of the
reduced matrices divided by the minimum of the reduced column counts.
(The variant in `src/src/cca.py` divides by the count of strictly positive
correlations instead; the packaged module is the exported API and matches
the spec formula.) -/
theorem svcca_distance_formula (o : SVDOracle) {n m1 m2 : ℕ}
    (x : Matrix (Fin n) (Fin m1) ℚ) (y : Matrix (Fin n) (Fin m2) ℚ)
    (hx : m1 ≤ n) (hy : m2 ≤ n) :
    svcca_distance o x y = Except.ok
      (1 - (∑ i, (_svd_cca o (zero_mean (svd_reduction o x).2)
                    (zero_mean (svd_reduction o y).2)).2.2 i)
            / ((min (svd_reduction o x).1 (svd_reduction o y).1 : ℕ) : ℚ)) :=
  svcca_eval o x y

/-- Witness for C1 at the backend `zeroOracle` and the `1 × 1` matrix
`oneMat` for both arguments. -/
theorem svcca_distance_formula_witness :
    (1 ≤ 1 ∧ 1 ≤ 1) ∧
    svcca_distance zeroOracle oneMat oneMat = Except.ok
      (1 - (∑ i, (_svd_cca zeroOracle (zero_mean (svd_reduction zeroOracle oneMat).2)
                    (zero_mean (svd_reduction zeroOracle oneMat).2)).2.2 i)
            / ((min (svd_reduction zeroOracle oneMat).1
                  (svd_reduction zeroOracle oneMat).1 : ℕ) : ℚ)) :=
  ⟨⟨le_refl 1, le_refl 1⟩,
    svcca_distance_formula zeroOracle oneMat oneMat (le_refl 1) (le_refl 1)⟩

end C1

section C6

/-- C6: for valid feature matrices with equal sample counts (by
construction) and samples at least features, `pwcca_distance` succeeds and
equals `1 - weights ⬝ diag`, where `weight j` is the sum over samples of
the absolute values of column `j` of `x @ A`, normalized to sum `1`, and
`diag` are the canonical correlations from the CCA solver run on the raw
inputs (no dimensionality reduction; the solver zero-means internally). -/
theorem pwcca_distance_formula (o : SVDOracle) {n m1 m2 : ℕ}
    (x : Matrix (Fin n) (Fin m1) ℚ) (y : Matrix (Fin n) (Fin m2) ℚ)
    (hx : m1 ≤ n) (hy : m2 ≤ n) :
    pwcca_distance o x y = Except.ok
      (1 - ∑ j, ((∑ i, |(x * (_svd_cca o (zero_mean x) (zero_mean y)).1) i j|)
                  / (∑ l, ∑ i, |(x * (_svd_cca o (zero_mean x) (zero_mean y)).1) i l|))
                * (_svd_cca o (zero_mean x) (zero_mean y)).2.2 j) :=
  pwcca_eval o x y hx hy

/-- Witness for C6 at the backend `zeroOracle` and the `1 × 1` matrix
`oneMat` for both arguments. -/
theorem pwcca_distance_formula_witness :
    (1 ≤ 1 ∧ 1 ≤ 1) ∧
    pwcca_distance zeroOracle oneMat oneMat = Except.ok
      (1 - ∑ j, ((∑ i, |(oneMat * (_svd_cca zeroOracle (zero_mean oneMat)
                    (zero_mean oneMat)).1) i j|)
                  / (∑ l, ∑ i, |(oneMat * (_svd_cca zeroOracle (zero_mean oneMat)
                    (zero_mean oneMat)).1) i l|))
                * (_svd_cca zeroOracle (zero_mean oneMat) (zero_mean oneMat)).2.2 j) :=
  ⟨⟨le_refl 1, le_refl 1⟩,
    pwcca_distance_formula zeroOracle oneMat oneMat (le_refl 1) (le_refl 1)⟩

end C6

section C3

/-- C3 counterexample: the packaged `_cca` of `cca/cca.py` does not raise
`NotImplementedError` on `method="qr"`; at concrete `1 × 1` inputs it
silently returns the SVD-computed solution. -/
theorem cca_qr_fallthrough_cex :
    _cca zeroOracle oneMat oneMat "qr"
      = Except.ok (_svd_cca zeroOracle (zero_mean oneMat) (zero_mean oneMat)) := by
  unfold _cca
  rw [if_neg (not_not_intro ⟨le_refl 1, le_refl 1⟩),
    if_neg (not_not_intro (Or.inr rfl))]

/-- C3 (amended): the solver `cca` of `src/src/cca.py` raises
`NotImplementedError` for `method="qr"` on every pair of inputs, while the
packaged `_cca` of `cca/cca.py` accepts `"qr"` but silently computes the
SVD solution (see the counterexample). -/
theorem src_cca_qr_raises (o : SVDOracle) {n m1 m2 : ℕ}
    (x : Matrix (Fin n) (Fin m1) ℚ) (y : Matrix (Fin n) (Fin m2) ℚ) :
    Src.cca o x y "qr" = Except.error PyError.notImplementedError := by
  unfold Src.cca
  rw [if_neg (not_not_intro (Or.inr rfl)), if_neg (by decide)]

end C3

section C4

/-- C4 counterexample: on a `5 × 3` feature map, requesting `size = 4`
exceeds the width (`3 < 4 ≤ 5`), yet the adapter does not raise — the
Python guard `(size, size) > (h, w)` is a lexicographic tuple comparison,
so the reshape succeeds (and the width is pooled upward). -/
theorem conv2d_reshape_lex_cex :
    4 ≤ 5 ∧ 3 < 4 ∧ _conv2d_reshape 8 16 5 3 (some 4) = Except.ok (16, 8, 16) :=
  ⟨by norm_num, by norm_num, rfl⟩

/-- C4 (amended): with a requested size, the adapter raises exactly when
the Python tuple comparison `(size, size) > (h, w)` holds, i.e. when
`size > h`, or `size = h` and `size > w`; otherwise both tensors are
pooled to `(size, size)` and reshaped to per-location form.  (A size
exceeding only the width of a taller-than-wide map does not raise.) -/
theorem conv2d_reshape_size_check (b c h w s : ℕ) :
    (_conv2d_reshape b c h w (some s) = Except.error PyError.runtimeError
      ↔ (h < s ∨ (s = h ∧ w < s)))
    ∧ (¬(h < s ∨ (s = h ∧ w < s)) →
        _conv2d_reshape b c h w (some s) = Except.ok (s * s, b, c)) := by
  by_cases hc : pyTupleGt (s, s) (h, w)
  · have he : _conv2d_reshape b c h w (some s) = Except.error PyError.runtimeError :=
      if_pos hc
    exact ⟨⟨fun _ => hc, fun _ => he⟩, fun hnc => absurd hc hnc⟩
  · have he : _conv2d_reshape b c h w (some s) = Except.ok (s * s, b, c) :=
      if_neg hc
    refine ⟨⟨fun herr => ?_, fun hcond => absurd hcond hc⟩, fun _ => he⟩
    rw [he] at herr
    exact absurd herr (by simp)

/-- Witness for C4: `size = 8` on a `32 × 32` feature map of a
`[8, 16, 32, 32]` tensor passes the check and pools to `8 × 8 = 64`
locations. -/
theorem conv2d_reshape_size_check_witness :
    ¬((32:ℕ) < 8 ∨ ((8:ℕ) = 32 ∧ (32:ℕ) < 8)) ∧
      _conv2d_reshape 8 16 32 32 (some 8) = Except.ok (64, 8, 16) :=
  ⟨by decide, (conv2d_reshape_size_check 8 16 32 32 8).2 (by decide)⟩

end C4

section C8

/-- C8: attaching resolves the layer name in the dict built from
`named_modules()`; a missing name raises `NameError` (no forward pass is
involved: `CCAHook.init` is a standalone computation), a resolved module
whose kind is neither `Linear` nor `Conv2d` raises `TypeError`, and
otherwise the attach succeeds with an empty slot. -/
theorem hook_init_errors (modules : List (String × ModuleKind)) (name : String) :
    ((CCAHook.init (α := Unit) modules name) = .error .nameError
      ↔ pyDictLookup modules name = none)
    ∧ (∀ k, pyDictLookup modules name = some k →
        ((CCAHook.init (α := Unit) modules name) = .error .typeError
          ↔ (k ≠ ModuleKind.linear ∧ k ≠ ModuleKind.conv2d)))
    ∧ (∀ k, pyDictLookup modules name = some k →
        (k = ModuleKind.linear ∨ k = ModuleKind.conv2d) →
        (CCAHook.init (α := Unit) modules name) = .ok ⟨k, none⟩) := by
  unfold CCAHook.init
  cases hl : pyDictLookup modules name with
  | none => simp
  | some k =>
    dsimp only
    by_cases hk : k = ModuleKind.conv2d ∨ k = ModuleKind.linear
    · rw [if_pos hk]
      refine ⟨by simp, ?_, ?_⟩
      · intro k2 hk2
        rw [Option.some_inj] at hk2
        subst hk2
        refine ⟨fun hcon => absurd hcon (by simp), fun hcon => ?_⟩
        rcases hk with h | h
        · exact absurd h hcon.2
        · exact absurd h hcon.1
      · intro k2 hk2 _
        rw [Option.some_inj] at hk2
        subst hk2
        rfl
    · rw [if_neg hk]
      push_neg at hk
      refine ⟨by simp, ?_, ?_⟩
      · intro k2 hk2
        rw [Option.some_inj] at hk2
        subst hk2
        simp only [true_iff]
        exact ⟨hk.2, hk.1⟩
      · intro k2 hk2 hsupp
        rw [Option.some_inj] at hk2
        subst hk2
        rcases hsupp with h | h
        · exact absurd h hk.2
        · exact absurd h hk.1

/-- Witness for C8 on a one-layer model registry holding a `Linear` layer
named `fc`. -/
theorem hook_init_errors_witness :
    pyDictLookup [("fc", ModuleKind.linear)] "fc" = some ModuleKind.linear ∧
    (CCAHook.init (α := Unit) [("fc", ModuleKind.linear)] "fc")
      = .ok ⟨ModuleKind.linear, none⟩ :=
  ⟨rfl, (hook_init_errors [("fc", ModuleKind.linear)] "fc").2.2
    ModuleKind.linear rfl (Or.inl rfl)⟩

end C8

section C7

/-- C7: the capture slot is a two-state machine.  At attach time the slot
is empty; every forward pass overwrites it with the new output
(last-write-wins); `clear` empties it; and reading the hooked value fails
with the state error exactly when the slot is empty — in particular, after
`clear` the read fails again even if the slot was populated before. -/
theorem hook_state_machine (α : Type) :
    (∀ (modules : List (String × ModuleKind)) (name : String) (h : CCAHook α),
        CCAHook.init modules name = .ok h → h.slot = none)
    ∧ (∀ (h : CCAHook α) (t : α), (h.onForward t).slot = some t)
    ∧ (∀ h : CCAHook α, (CCAHook.clear h).slot = none)
    ∧ (∀ h : CCAHook α,
        h._get_hooked_value = .error .runtimeError ↔ h.slot = none)
    ∧ (∀ (h : CCAHook α) (v : α), h._get_hooked_value = .ok v ↔ h.slot = some v)
    ∧ (∀ (h : CCAHook α) (t : α),
        ((h.onForward t).clear)._get_hooked_value = .error .runtimeError) := by
  refine ⟨?_, fun h t => rfl, fun h => rfl, ?_, ?_, fun h t => rfl⟩
  · intro modules name h hok
    unfold CCAHook.init at hok
    cases hl : pyDictLookup modules name with
    | none => rw [hl] at hok; exact absurd hok (by simp)
    | some k =>
      rw [hl] at hok
      dsimp only at hok
      by_cases hk : k = ModuleKind.conv2d ∨ k = ModuleKind.linear
      · rw [if_pos hk] at hok
        rw [Except.ok.injEq] at hok
        rw [← hok]
      · rw [if_neg hk] at hok
        exact absurd hok (by simp)
  · intro h
    unfold CCAHook._get_hooked_value
    cases hs : h.slot with
    | none => simp
    | some v => simp
  · intro h v
    unfold CCAHook._get_hooked_value
    cases hs : h.slot with
    | none => simp
    | some v2 => simp

/-- Witness for C7 on a one-layer model: attach yields an empty slot, and
a populate-then-clear sequence makes the read fail again. -/
theorem hook_state_machine_witness :
    CCAHook.init [("fc", ModuleKind.linear)] "fc"
      = Except.ok (⟨ModuleKind.linear, none⟩ : CCAHook ℚ)
    ∧ (⟨ModuleKind.linear, none⟩ : CCAHook ℚ).slot = none
    ∧ (((⟨ModuleKind.linear, none⟩ : CCAHook ℚ).onForward 5).clear)._get_hooked_value
        = Except.error PyError.runtimeError :=
  ⟨rfl, (hook_state_machine ℚ).1 [("fc", ModuleKind.linear)] "fc" _ rfl,
    (hook_state_machine ℚ).2.2.2.2.2 ⟨ModuleKind.linear, none⟩ 5⟩

end C7

section C5

/-- C5 (amended): the self distances vanish for every valid feature
matrix (at least one feature, samples at least features), provided the
reducer retains at least one column of `x` (SVCCA divides by the reduced
dimension, which the source does not guard against being `0` — see the
counterexample), the backend returns genuine SVDs at the matrices the
pipeline decomposes, and the singular values of the centered input are
all nonzero — on a zero singular value the program computes
`s_1.reciprocal() = inf` and PWCCA returns NaN rather than `0` (see
`rank_deficient_exhibit` for such a valid input).  Under these
hypotheses the exact arithmetic agrees with the program and both
distances are exactly `0`; the PWCCA weight sum is then provably
nonzero (`pwcca_self_weights_ne`), so no separate weight hypothesis is
needed. -/
theorem cca_self_distance_zero (o : SVDOracle) {n m : ℕ}
    (x : Matrix (Fin n) (Fin m) ℚ) (hm1 : 1 ≤ m) (hm : m ≤ n)
    (hk : 1 ≤ (svd_reduction o x).1)
    (hred : SVDValid (zero_mean (svd_reduction o x).2)
      (o n (svd_reduction o x).1 (zero_mean (svd_reduction o x).2)))
    (hreduu : SVDValid
      ((o n (svd_reduction o x).1 (zero_mean (svd_reduction o x).2)).U.transpose
        * (o n (svd_reduction o x).1 (zero_mean (svd_reduction o x).2)).U)
      (o (min n (svd_reduction o x).1) (min n (svd_reduction o x).1)
        ((o n (svd_reduction o x).1 (zero_mean (svd_reduction o x).2)).U.transpose
          * (o n (svd_reduction o x).1 (zero_mean (svd_reduction o x).2)).U)))
    (hraw : SVDValid (zero_mean x) (o n m (zero_mean x)))
    (hrawuu : SVDValid
      ((o n m (zero_mean x)).U.transpose * (o n m (zero_mean x)).U)
      (o (min n m) (min n m)
        ((o n m (zero_mean x)).U.transpose * (o n m (zero_mean x)).U)))
    (hS : ∀ i, (o n m (zero_mean x)).S i ≠ 0) :
    svcca_distance o x x = Except.ok 0 ∧ pwcca_distance o x x = Except.ok 0 := by
  have halpha := pwcca_self_weights_ne o x hm1 hm hraw hrawuu hS
  constructor
  · rw [svcca_eval o x x]
    have hd := _svd_cca_self_diag o (zero_mean (svd_reduction o x).2) hred hreduu
    have h1 : (svd_reduction o x).1 ≤ n :=
      le_trans (svd_reduction_fst_le o x _) (min_le_left _ _)
    have hsum : (∑ i, (_svd_cca o (zero_mean (svd_reduction o x).2)
        (zero_mean (svd_reduction o x).2)).2.2 i)
        = ((min (min n (svd_reduction o x).1) (min n (svd_reduction o x).1) : ℕ) : ℚ) := by
      rw [Finset.sum_congr rfl (fun i _ => hd i)]
      simp [Finset.card_univ]
    rw [hsum]
    have hmin : min (min n (svd_reduction o x).1) (min n (svd_reduction o x).1)
        = (svd_reduction o x).1 := by
      rw [Nat.min_self]
      exact Nat.min_eq_right h1
    rw [hmin, Nat.min_self]
    have hne : (((svd_reduction o x).1 : ℕ) : ℚ) ≠ 0 :=
      Nat.cast_ne_zero.mpr (by omega)
    rw [div_self hne, sub_self]
  · rw [pwcca_eval o x x hm hm]
    have hd := _svd_cca_self_diag o (zero_mean x) hraw hrawuu
    have hstep : (∑ j, ((∑ i, |(x * (_svd_cca o (zero_mean x) (zero_mean x)).1) i j|)
          / (∑ l, ∑ i, |(x * (_svd_cca o (zero_mean x) (zero_mean x)).1) i l|))
        * (_svd_cca o (zero_mean x) (zero_mean x)).2.2 j)
        = (∑ l, ∑ i, |(x * (_svd_cca o (zero_mean x) (zero_mean x)).1) i l|)
          / (∑ l, ∑ i, |(x * (_svd_cca o (zero_mean x) (zero_mean x)).1) i l|) := by
      rw [Finset.sum_div]
      refine Finset.sum_congr rfl (fun j _ => ?_)
      rw [hd j, mul_one]
    rw [hstep, div_self halpha, sub_self]

end C5

section ConcreteEval

/-- Enumeration of the index type `Fin (min 4 1)`. -/
theorem univ_min41 : (Finset.univ : Finset (Fin (min 4 1))) = {(0 : Fin 1)} := rfl

/-- Enumeration of the index type `Fin (min 4 2)`. -/
theorem univ_min42 : (Finset.univ : Finset (Fin (min 4 2))) = {(0 : Fin 2), (1 : Fin 2)} := rfl

/-- Sums over `Fin (min 4 1)` have a single term. -/
theorem sum_min41 (f : Fin (min 4 1) → ℚ) : (∑ j, f j) = f (0 : Fin 1) := by
  rw [univ_min41, Finset.sum_singleton]

/-- Sums over `Fin (min 4 2)` have two terms. -/
theorem sum_min42 (f : Fin (min 4 2) → ℚ) : (∑ j, f j) = f (0 : Fin 2) + f (1 : Fin 2) := by
  rw [univ_min42, Finset.sum_insert (by decide), Finset.sum_singleton]

/-- Case analysis over `Fin (min 4 1)`. -/
theorem cases_min41 (P : Fin (min 4 1) → Prop) (h0 : P (0 : Fin 1)) : ∀ j, P j := by
  intro j
  match j with
  | ⟨0, h⟩ => exact h0
  | ⟨k + 1, h⟩ => exact absurd (h : k + 1 < 1) (by omega)

/-- Case analysis over `Fin (min 4 2)`. -/
theorem cases_min42 (P : Fin (min 4 2) → Prop) (h0 : P (0 : Fin 2)) (h1 : P (1 : Fin 2)) :
    ∀ j, P j := by
  intro j
  match j with
  | ⟨0, h⟩ => exact h0
  | ⟨1, h⟩ => exact h1
  | ⟨k + 2, h⟩ => exact absurd (h : k + 2 < 2) (by omega)

end ConcreteEval

section C5Cex

/-- The backend value at `x0mat`, spelled out. -/
theorem cexOracle_at_x0 : cexOracle 4 1 x0mat = ⟨!![1/2; 1/2; -1/2; -1/2], ![6], !![1]⟩ := rfl

/-- The triple `cexOracle` returns at `x0mat` is a genuine SVD. -/
theorem x0_svd_valid : SVDValid x0mat (cexOracle 4 1 x0mat) := by
  rw [cexOracle_at_x0]
  refine ⟨?_, ?_, ?_, ?_⟩
  · ext i j
    rw [Matrix.mul_apply, sum_min41, Matrix.mul_diagonal, Matrix.transpose_apply]
    fin_cases i <;> fin_cases j <;> norm_num [x0mat]
  · refine Matrix.ext (cases_min41 _ (cases_min41 _ ?_))
    rw [Matrix.mul_apply, Fin.sum_univ_four]
    norm_num [Matrix.transpose_apply, Matrix.one_apply, Matrix.vecHead, Matrix.vecTail]
  · refine Matrix.ext (cases_min41 _ (cases_min41 _ ?_))
    rw [Matrix.mul_apply, Fin.sum_univ_one]
    norm_num [Matrix.transpose_apply, Matrix.one_apply]
  · refine cases_min41 _ ?_
    norm_num

/-- Every cumulative ratio of the single singular value `6` of `x0mat` is
exactly `1`. -/
theorem cex_ratio_one : ∀ i, svdRatio (cexOracle 4 1 x0mat).S i = 1 := by
  refine cases_min41 _ ?_
  unfold svdRatio absCumsum
  have hfil : (Finset.univ.filter (fun j : Fin (min 4 1) => j ≤ (0 : Fin 1)))
      = Finset.univ := by
    refine Finset.filter_true_of_mem (fun j _ => ?_)
    show j.1 ≤ 0
    have hj : j.1 < 1 := j.isLt
    omega
  rw [hfil]
  refine div_self ?_
  rw [sum_min41, cexOracle_at_x0]
  norm_num

/-- The reducer keeps zero columns of `x0mat` at the default accept rate:
the first cumulative ratio is already `1 ≥ 0.99`. -/
theorem cex_reduction : svd_reduction cexOracle x0mat = ⟨0, fun _ _ => 0⟩ := by
  refine svd_reduction_eq_of cexOracle x0mat (99/100) 0 ?_ (by omega) _ ?_
  · unfold retainedNum
    rw [Finset.card_eq_zero, Finset.filter_eq_empty_iff]
    intro i _
    rw [cex_ratio_one i]
    norm_num
  · ext i j
    exact absurd j.isLt (by omega)

/-- C5 counterexample: `x0mat` is a valid feature matrix (4 samples, 1
feature) and `cexOracle` decomposes it genuinely, yet the SVCCA
self-distance is `1`, not `0`: the reducer keeps zero columns, the diag
sum over the empty index set is `0`, and `1 - 0/0 = 1` in `ℚ` (the
floating-point code divides `0` by the integer `0`, producing NaN — in
either arithmetic the distance is not approximately `0`). -/
theorem self_distance_cex :
    SVDValid x0mat (cexOracle 4 1 x0mat)
    ∧ svcca_distance cexOracle x0mat x0mat = Except.ok 1 := by
  refine ⟨x0_svd_valid, ?_⟩
  rw [svcca_eval cexOracle x0mat x0mat, cex_reduction]
  have hempty : (∑ i, (_svd_cca cexOracle
      (zero_mean ((⟨0, fun _ _ => 0⟩ : Σ num : ℕ, Matrix (Fin 4) (Fin num) ℚ)).2)
      (zero_mean ((⟨0, fun _ _ => 0⟩ : Σ num : ℕ, Matrix (Fin 4) (Fin num) ℚ)).2)).2.2 i)
      = 0 := by
    apply Finset.sum_eq_zero
    intro i _
    exact absurd (i.isLt : i.1 < 0) (Nat.not_lt_zero i.1)
  rw [hempty, zero_div, sub_zero]

end C5Cex

section C5Witness

/-- Sums over `Fin (min (min 4 1) (min 4 1))` have a single term. -/
theorem sum_m1m1 (f : Fin (min (min 4 1) (min 4 1)) → ℚ) : (∑ j, f j) = f (0 : Fin 1) := by
  rw [show (Finset.univ : Finset (Fin (min (min 4 1) (min 4 1)))) = {(0 : Fin 1)} from rfl,
    Finset.sum_singleton]

/-- Case analysis over `Fin (min (min 4 1) (min 4 1))`. -/
theorem cases_m1m1 (P : Fin (min (min 4 1) (min 4 1)) → Prop) (h0 : P (0 : Fin 1)) :
    ∀ j, P j := by
  intro j
  match j with
  | ⟨0, h⟩ => exact h0
  | ⟨k + 1, h⟩ => exact absurd (h : k + 1 < 1) (by omega)

/-- Sums over `Fin (min (min 4 2) (min 4 2))` have two terms. -/
theorem sum_m2m2 (f : Fin (min (min 4 2) (min 4 2)) → ℚ) :
    (∑ j, f j) = f (0 : Fin 2) + f (1 : Fin 2) := by
  rw [show (Finset.univ : Finset (Fin (min (min 4 2) (min 4 2))))
      = {(0 : Fin 2), (1 : Fin 2)} from rfl,
    Finset.sum_insert (by decide), Finset.sum_singleton]

/-- Case analysis over `Fin (min (min 4 2) (min 4 2))`. -/
theorem cases_m2m2 (P : Fin (min (min 4 2) (min 4 2)) → Prop) (h0 : P (0 : Fin 2))
    (h1 : P (1 : Fin 2)) : ∀ j, P j := by
  intro j
  match j with
  | ⟨0, h⟩ => exact h0
  | ⟨1, h⟩ => exact h1
  | ⟨k + 2, h⟩ => exact absurd (h : k + 2 < 2) (by omega)

/-- The backend value at `wXmat`, spelled out. -/
theorem wOracle_at_X :
    wOracle 4 2 wXmat
      = ⟨!![1/2, 1/2; 1/2, -1/2; -1/2, 1/2; -1/2, -1/2], ![6, 4], !![1, 0; 0, 1]⟩ := rfl

/-- The backend value at `x0mat`, spelled out. -/
theorem wOracle_at_x0 : wOracle 4 1 x0mat = ⟨!![1/2; 1/2; -1/2; -1/2], ![6], !![1]⟩ := rfl

/-- On `1 × 1` inputs the backend returns the identity triple. -/
theorem wOracle_11 (A : Matrix (Fin (min 4 1)) (Fin (min 4 1)) ℚ) :
    wOracle (min 4 1) (min 4 1) A = ⟨!![1], ![1], !![1]⟩ := rfl

/-- On `2 × 2` inputs the backend returns the identity triple. -/
theorem wOracle_22 (A : Matrix (Fin (min 4 2)) (Fin (min 4 2)) ℚ) :
    wOracle (min 4 2) (min 4 2) A = ⟨!![1, 0; 0, 1], ![1, 1], !![1, 0; 0, 1]⟩ := rfl

/-- The columns of `x0mat` are already zero-mean. -/
theorem zero_mean_x0 : zero_mean x0mat = x0mat := by
  ext i j
  show x0mat i j - (∑ r, x0mat r j) / ((4 : ℕ) : ℚ) = x0mat i j
  have hs : (∑ r, x0mat r j) = 0 := by
    rw [Fin.sum_univ_four]
    fin_cases j <;> norm_num [x0mat, Matrix.vecHead, Matrix.vecTail]
  rw [hs]
  norm_num

/-- The columns of `wXmat` are already zero-mean. -/
theorem zero_mean_X : zero_mean wXmat = wXmat := by
  ext i j
  show wXmat i j - (∑ r, wXmat r j) / ((4 : ℕ) : ℚ) = wXmat i j
  have hs : (∑ r, wXmat r j) = 0 := by
    rw [Fin.sum_univ_four]
    fin_cases j <;> norm_num [wXmat, Matrix.vecHead, Matrix.vecTail]
  rw [hs]
  norm_num

/-- The triple `wOracle` returns at `x0mat` is a genuine SVD. -/
theorem x0_w_svd_valid : SVDValid x0mat (wOracle 4 1 x0mat) := by
  rw [wOracle_at_x0, ← cexOracle_at_x0]
  exact x0_svd_valid

/-- The triple `wOracle` returns at `wXmat` is a genuine SVD. -/
theorem wX_svd_valid : SVDValid wXmat (wOracle 4 2 wXmat) := by
  rw [wOracle_at_X]
  refine ⟨?_, ?_, ?_, ?_⟩
  · ext i j
    rw [Matrix.mul_apply, sum_min42, Matrix.mul_diagonal, Matrix.mul_diagonal,
      Matrix.transpose_apply, Matrix.transpose_apply]
    fin_cases i <;> fin_cases j <;>
      norm_num [wXmat, Matrix.vecHead, Matrix.vecTail]
  · refine Matrix.ext (cases_min42 _ (cases_min42 _ ?_ ?_) (cases_min42 _ ?_ ?_))
    · rw [Matrix.mul_apply, Fin.sum_univ_four, Matrix.one_apply_eq]
      norm_num [Matrix.transpose_apply, Matrix.vecHead, Matrix.vecTail]
    · rw [Matrix.mul_apply, Fin.sum_univ_four, Matrix.one_apply_ne (by decide)]
      norm_num [Matrix.transpose_apply, Matrix.vecHead, Matrix.vecTail]
    · rw [Matrix.mul_apply, Fin.sum_univ_four, Matrix.one_apply_ne (by decide)]
      norm_num [Matrix.transpose_apply, Matrix.vecHead, Matrix.vecTail]
    · rw [Matrix.mul_apply, Fin.sum_univ_four, Matrix.one_apply_eq]
      norm_num [Matrix.transpose_apply, Matrix.vecHead, Matrix.vecTail]
  · refine Matrix.ext (cases_min42 _ (cases_min42 _ ?_ ?_) (cases_min42 _ ?_ ?_))
    · rw [Matrix.mul_apply, Fin.sum_univ_two, Matrix.one_apply_eq]
      norm_num [Matrix.transpose_apply, Matrix.vecHead, Matrix.vecTail]
    · rw [Matrix.mul_apply, Fin.sum_univ_two, Matrix.one_apply_ne (by decide)]
      norm_num [Matrix.transpose_apply, Matrix.vecHead, Matrix.vecTail]
    · rw [Matrix.mul_apply, Fin.sum_univ_two, Matrix.one_apply_ne (by decide)]
      norm_num [Matrix.transpose_apply, Matrix.vecHead, Matrix.vecTail]
    · rw [Matrix.mul_apply, Fin.sum_univ_two, Matrix.one_apply_eq]
      norm_num [Matrix.transpose_apply, Matrix.vecHead, Matrix.vecTail]
  · refine cases_min42 _ ?_ ?_ <;> norm_num

/-- The identity triple returned on `1 × 1` inputs is a genuine SVD of
the identity matrix. -/
theorem id1_svd_valid (A : Matrix (Fin (min 4 1)) (Fin (min 4 1)) ℚ) (hA : A = 1) :
    SVDValid A (wOracle (min 4 1) (min 4 1) A) := by
  rw [wOracle_11, hA]
  refine ⟨?_, ?_, ?_, ?_⟩
  · refine Matrix.ext (cases_min41 _ (cases_min41 _ ?_))
    rw [Matrix.mul_apply, sum_m1m1, Matrix.mul_diagonal, Matrix.transpose_apply,
      Matrix.one_apply_eq]
    norm_num
  · refine Matrix.ext (cases_m1m1 _ (cases_m1m1 _ ?_))
    rw [Matrix.mul_apply, sum_min41, Matrix.transpose_apply, Matrix.one_apply_eq]
    norm_num
  · refine Matrix.ext (cases_m1m1 _ (cases_m1m1 _ ?_))
    rw [Matrix.mul_apply, sum_min41, Matrix.transpose_apply, Matrix.one_apply_eq]
    norm_num
  · refine cases_m1m1 _ ?_
    norm_num

/-- The identity triple returned on `2 × 2` inputs is a genuine SVD of
the identity matrix. -/
theorem id2_svd_valid (A : Matrix (Fin (min 4 2)) (Fin (min 4 2)) ℚ) (hA : A = 1) :
    SVDValid A (wOracle (min 4 2) (min 4 2) A) := by
  rw [wOracle_22, hA]
  refine ⟨?_, ?_, ?_, ?_⟩
  · refine Matrix.ext (cases_min42 _ (cases_min42 _ ?_ ?_) (cases_min42 _ ?_ ?_))
    · rw [Matrix.mul_apply, sum_m2m2, Matrix.mul_diagonal, Matrix.mul_diagonal,
        Matrix.transpose_apply, Matrix.transpose_apply, Matrix.one_apply_eq]
      norm_num
    · rw [Matrix.mul_apply, sum_m2m2, Matrix.mul_diagonal, Matrix.mul_diagonal,
        Matrix.transpose_apply, Matrix.transpose_apply, Matrix.one_apply_ne (by decide)]
      norm_num
    · rw [Matrix.mul_apply, sum_m2m2, Matrix.mul_diagonal, Matrix.mul_diagonal,
        Matrix.transpose_apply, Matrix.transpose_apply, Matrix.one_apply_ne (by decide)]
      norm_num
    · rw [Matrix.mul_apply, sum_m2m2, Matrix.mul_diagonal, Matrix.mul_diagonal,
        Matrix.transpose_apply, Matrix.transpose_apply, Matrix.one_apply_eq]
      norm_num
  · refine Matrix.ext (cases_m2m2 _ (cases_m2m2 _ ?_ ?_) (cases_m2m2 _ ?_ ?_))
    · rw [Matrix.mul_apply, sum_min42, Matrix.transpose_apply, Matrix.one_apply_eq]
      norm_num
    · rw [Matrix.mul_apply, sum_min42, Matrix.transpose_apply, Matrix.one_apply_ne (by decide)]
      norm_num
    · rw [Matrix.mul_apply, sum_min42, Matrix.transpose_apply, Matrix.one_apply_ne (by decide)]
      norm_num
    · rw [Matrix.mul_apply, sum_min42, Matrix.transpose_apply, Matrix.one_apply_eq]
      norm_num
  · refine Matrix.ext (cases_m2m2 _ (cases_m2m2 _ ?_ ?_) (cases_m2m2 _ ?_ ?_))
    · rw [Matrix.mul_apply, sum_min42, Matrix.transpose_apply, Matrix.one_apply_eq]
      norm_num
    · rw [Matrix.mul_apply, sum_min42, Matrix.transpose_apply, Matrix.one_apply_ne (by decide)]
      norm_num
    · rw [Matrix.mul_apply, sum_min42, Matrix.transpose_apply, Matrix.one_apply_ne (by decide)]
      norm_num
    · rw [Matrix.mul_apply, sum_min42, Matrix.transpose_apply, Matrix.one_apply_eq]
      norm_num
  · refine cases_m2m2 _ ?_ ?_ <;> norm_num

/-- The first cumulative energy ratio of `wXmat` is `6/10`. -/
theorem wX_ratio0 : svdRatio (wOracle 4 2 wXmat).S (0 : Fin 2) = 3/5 := by
  unfold svdRatio absCumsum
  rw [show (Finset.univ.filter (fun j : Fin (min 4 2) => j ≤ (0 : Fin 2)))
      = {(0 : Fin 2)} from rfl, Finset.sum_singleton, sum_min42, wOracle_at_X]
  norm_num

/-- The second cumulative energy ratio of `wXmat` is `1`. -/
theorem wX_ratio1 : svdRatio (wOracle 4 2 wXmat).S (1 : Fin 2) = 1 := by
  unfold svdRatio absCumsum
  rw [show (Finset.univ.filter (fun j : Fin (min 4 2) => j ≤ (1 : Fin 2)))
      = Finset.univ from rfl, sum_min42, wOracle_at_X]
  norm_num

/-- The reducer keeps exactly one column of `wXmat` at the default
accept rate: `6/10 < 0.99` but `1 ≥ 0.99`. -/
theorem wX_retained : retainedNum (wOracle 4 2 wXmat).S (99/100) = 1 := by
  unfold retainedNum
  have hfil : (Finset.univ.filter
      (fun i : Fin (min 4 2) => svdRatio (wOracle 4 2 wXmat).S i < 99/100))
      = {(0 : Fin 2)} := by
    rw [univ_min42, Finset.filter_insert, Finset.filter_singleton,
      if_pos (by rw [wX_ratio0]; norm_num), if_neg (by rw [wX_ratio1]; norm_num)]
    rfl
  rw [hfil, Finset.card_singleton]

/-- Reducing `wXmat` keeps its first singular direction: the reduced
matrix is the column `6·u1 = (3, 3, -3, -3)`, that is, `x0mat`. -/
theorem wX_reduction : svd_reduction wOracle wXmat = ⟨1, x0mat⟩ := by
  refine svd_reduction_eq_of wOracle wXmat (99/100) 1 wX_retained (by omega) x0mat ?_
  ext i j
  rw [Matrix.mul_apply, Fin.sum_univ_two]
  unfold takeCols
  rw [wOracle_at_X]
  fin_cases i <;> fin_cases j <;>
    norm_num [wXmat, x0mat, Fin.castLE, Matrix.vecHead, Matrix.vecTail]

/-- Both singular values `6` and `4` of the (already centered) `wXmat`
are nonzero, so the reciprocal path of the program stays finite on it. -/
theorem wX_S_ne : ∀ i, (wOracle 4 2 (zero_mean wXmat)).S i ≠ 0 := by
  simp only [zero_mean_X, wOracle_at_X]
  refine cases_min42 _ ?_ ?_ <;> norm_num

/-- Witness for C5 (amended) at the backend `wOracle` and the matrix
`wXmat`: 1 feature bound and sample bound hold, the reducer keeps one
column, the oracle is a genuine SVD at every decomposed matrix, the
centered input has no zero singular value, and both self distances
evaluate to exactly `0`. -/
theorem cca_self_distance_zero_witness :
    ((1 : ℕ) ≤ 2 ∧ (2 : ℕ) ≤ 4
      ∧ 1 ≤ (svd_reduction wOracle wXmat).1
      ∧ SVDValid (zero_mean wXmat) (wOracle 4 2 (zero_mean wXmat))
      ∧ (∀ i, (wOracle 4 2 (zero_mean wXmat)).S i ≠ 0))
    ∧ svcca_distance wOracle wXmat wXmat = Except.ok 0
    ∧ pwcca_distance wOracle wXmat wXmat = Except.ok 0 := by
  have hk : 1 ≤ (svd_reduction wOracle wXmat).1 := by
    rw [wX_reduction]
  have hraw : SVDValid (zero_mean wXmat) (wOracle 4 2 (zero_mean wXmat)) := by
    rw [zero_mean_X]
    exact wX_svd_valid
  have hrawuu : SVDValid
      ((wOracle 4 2 (zero_mean wXmat)).U.transpose * (wOracle 4 2 (zero_mean wXmat)).U)
      (wOracle (min 4 2) (min 4 2)
        ((wOracle 4 2 (zero_mean wXmat)).U.transpose
          * (wOracle 4 2 (zero_mean wXmat)).U)) := by
    rw [zero_mean_X]
    exact id2_svd_valid _ wX_svd_valid.2.1
  have hred : SVDValid (zero_mean (svd_reduction wOracle wXmat).2)
      (wOracle 4 (svd_reduction wOracle wXmat).1
        (zero_mean (svd_reduction wOracle wXmat).2)) := by
    rw [wX_reduction]
    show SVDValid (zero_mean x0mat) (wOracle 4 1 (zero_mean x0mat))
    rw [zero_mean_x0]
    exact x0_w_svd_valid
  have hreduu : SVDValid
      ((wOracle 4 (svd_reduction wOracle wXmat).1
        (zero_mean (svd_reduction wOracle wXmat).2)).U.transpose
        * (wOracle 4 (svd_reduction wOracle wXmat).1
            (zero_mean (svd_reduction wOracle wXmat).2)).U)
      (wOracle (min 4 (svd_reduction wOracle wXmat).1)
        (min 4 (svd_reduction wOracle wXmat).1)
        ((wOracle 4 (svd_reduction wOracle wXmat).1
          (zero_mean (svd_reduction wOracle wXmat).2)).U.transpose
          * (wOracle 4 (svd_reduction wOracle wXmat).1
              (zero_mean (svd_reduction wOracle wXmat).2)).U)) := by
    rw [wX_reduction]
    show SVDValid ((wOracle 4 1 (zero_mean x0mat)).U.transpose
        * (wOracle 4 1 (zero_mean x0mat)).U)
      (wOracle (min 4 1) (min 4 1)
        ((wOracle 4 1 (zero_mean x0mat)).U.transpose * (wOracle 4 1 (zero_mean x0mat)).U))
    rw [zero_mean_x0]
    exact id1_svd_valid _ x0_w_svd_valid.2.1
  have hd := cca_self_distance_zero wOracle wXmat (by norm_num) (by norm_num) hk
    hred hreduu hraw hrawuu wX_S_ne
  exact ⟨⟨by norm_num, by norm_num, hk, hraw, wX_S_ne⟩, hd.1, hd.2⟩

end C5Witness

section C5Exhibit

/-- Sums over `Fin (min 4 3)` have three terms. -/
theorem sum_min43 (f : Fin (min 4 3) → ℚ) :
    (∑ j, f j) = f (0 : Fin 3) + f (1 : Fin 3) + f (2 : Fin 3) := by
  rw [show (Finset.univ : Finset (Fin (min 4 3)))
      = {(0 : Fin 3), (1 : Fin 3), (2 : Fin 3)} from rfl,
    Finset.sum_insert (by decide), Finset.sum_insert (by decide), Finset.sum_singleton]
  ring

/-- Case analysis over `Fin (min 4 3)`. -/
theorem cases_min43 (P : Fin (min 4 3) → Prop) (h0 : P (0 : Fin 3)) (h1 : P (1 : Fin 3))
    (h2 : P (2 : Fin 3)) : ∀ j, P j := by
  intro j
  match j with
  | ⟨0, h⟩ => exact h0
  | ⟨1, h⟩ => exact h1
  | ⟨2, h⟩ => exact h2
  | ⟨k + 3, h⟩ => exact absurd (h : k + 3 < 3) (by omega)

/-- The columns of `rdXmat` are already zero-mean. -/
theorem zero_mean_rd : zero_mean rdXmat = rdXmat := by
  ext i j
  show rdXmat i j - (∑ r, rdXmat r j) / ((4 : ℕ) : ℚ) = rdXmat i j
  have hs : (∑ r, rdXmat r j) = 0 := by
    rw [Fin.sum_univ_four]
    fin_cases j <;> norm_num [rdXmat, Matrix.vecHead, Matrix.vecTail]
  rw [hs]
  norm_num

/-- The backend value at `rdXmat`, spelled out. -/
theorem rdOracle_at :
    rdOracle 4 3 rdXmat
      = ⟨!![1/2, 1/2, 1/2; 1/2, -1/2, -1/2; -1/2, 1/2, -1/2; -1/2, -1/2, 1/2],
          ![6, 4, 0], !![1, 0, 0; 0, 1, 0; 0, 0, 1]⟩ := rfl

/-- The triple `rdOracle` returns at `rdXmat` is a genuine SVD. -/
theorem rd_svd_valid : SVDValid rdXmat (rdOracle 4 3 rdXmat) := by
  rw [rdOracle_at]
  refine ⟨?_, ?_, ?_, ?_⟩
  · ext i j
    rw [Matrix.mul_apply, sum_min43]
    simp only [Matrix.mul_diagonal, Matrix.transpose_apply]
    fin_cases i <;> fin_cases j <;>
      norm_num [rdXmat, Matrix.vecHead, Matrix.vecTail]
  · refine Matrix.ext (cases_min43 _ (cases_min43 _ ?_ ?_ ?_) (cases_min43 _ ?_ ?_ ?_)
      (cases_min43 _ ?_ ?_ ?_))
    all_goals first
      | (rw [Matrix.mul_apply, Fin.sum_univ_four, Matrix.one_apply_eq]
         norm_num [Matrix.transpose_apply, Matrix.vecHead, Matrix.vecTail])
      | (rw [Matrix.mul_apply, Fin.sum_univ_four, Matrix.one_apply_ne (by decide)]
         norm_num [Matrix.transpose_apply, Matrix.vecHead, Matrix.vecTail])
  · refine Matrix.ext (cases_min43 _ (cases_min43 _ ?_ ?_ ?_) (cases_min43 _ ?_ ?_ ?_)
      (cases_min43 _ ?_ ?_ ?_))
    all_goals first
      | (rw [Matrix.mul_apply, Fin.sum_univ_three, Matrix.one_apply_eq]
         norm_num [Matrix.transpose_apply, Matrix.vecHead, Matrix.vecTail])
      | (rw [Matrix.mul_apply, Fin.sum_univ_three, Matrix.one_apply_ne (by decide)]
         norm_num [Matrix.transpose_apply, Matrix.vecHead, Matrix.vecTail])
  · refine cases_min43 _ ?_ ?_ ?_ <;> norm_num

/-- The nonzero-singular-value hypothesis of the amended C5 excludes
genuine program inputs: `rdXmat` is a valid feature matrix (4 samples,
3 features, already zero-mean) with a genuine rational SVD whose third
singular value is `0`.  On this input the program computes
`s_1.reciprocal() = (1/6, 1/4, inf)`, `x @ a` then contains `0 * inf =`
NaN, and `pwcca_distance` returns NaN — a value exact arithmetic cannot
express, which is why the amended claim must assume all singular values
nonzero on the PWCCA path. -/
theorem rank_deficient_exhibit :
    SVDValid (zero_mean rdXmat) (rdOracle 4 3 (zero_mean rdXmat))
    ∧ (rdOracle 4 3 (zero_mean rdXmat)).S ⟨2, by decide⟩ = 0 := by
  rw [zero_mean_rd]
  exact ⟨rd_svd_valid, rfl⟩

end C5Exhibit

end Cca
